import Mathlib

/-!
Shallow embedding of `src/merge2_uniq.rs` (crate `kmerge`): five strategies that
merge two sorted, deduplicated sequences into their sorted, deduplicated union.
`Vec<T>` is modelled as `List α`; the `T : Ord` bound is modelled by an explicit
comparator `cmp : α → α → Ordering` (with `Batteries.TransCmp` supplying the
lawfulness that Rust's `Ord` contract promises); for claims about a concrete
total order we instantiate `cmp := compare` over a `LinearOrder`.
-/

namespace KMerge

open Batteries (OrientedCmp TransCmp)

variable {α : Type*}

/-- The main loop of `into_iter` (lines 28-67): while both inputs are nonempty,
compare the front elements; on `Less` move the front of `a` to the output, on
`Greater` move the front of `b`, on `Equal` move the front of `a` and drop the
front of `b`.  Once either side is exhausted the remaining elements of the
other side are pushed to the output unchanged (the two tail `for` loops). -/
def mergeLoop (cmp : α → α → Ordering) : List α → List α → List α
  | [], b => b
  | a, [] => a
  | x :: xs, y :: ys =>
    match cmp x y with
    | .lt => x :: mergeLoop cmp xs (y :: ys)
    | .gt => y :: mergeLoop cmp (x :: xs) ys
    | .eq => x :: mergeLoop cmp xs ys
  termination_by a b => a.length + b.length

/-- `into_iter` (lines 10-70): two empty-input fast paths returning the other
input unchanged, then the merge loop writing into a buffer of capacity
`a.len() + b.len()`. -/
def into_iter (cmp : α → α → Ordering) (a b : List α) : List α :=
  if a.isEmpty then b
  else if b.isEmpty then a
  else mergeLoop cmp a b

/-- The main loop of `into_iter_safer` (lines 90-118): identical case analysis
to `into_iter`, performed with checked accesses (`as_slice()[0]`,
`next().unwrap()`, `extend`) instead of the unchecked ones; the checked and
unchecked accesses denote the same values, so the branches coincide. -/
def mergeLoopSafer (cmp : α → α → Ordering) : List α → List α → List α
  | [], b => b
  | a, [] => a
  | x :: xs, y :: ys =>
    match cmp x y with
    | .lt => x :: mergeLoopSafer cmp xs (y :: ys)
    | .gt => y :: mergeLoopSafer cmp (x :: xs) ys
    | .eq => x :: mergeLoopSafer cmp xs ys
  termination_by a b => a.length + b.length

/-- `into_iter_safer` (lines 72-121): fast paths plus the checked merge loop. -/
def into_iter_safer (cmp : α → α → Ordering) (a b : List α) : List α :=
  if a.isEmpty then b
  else if b.isEmpty then a
  else mergeLoopSafer cmp a b

/-- The main loop and drain phase of `raw_ptr` (lines 222-264): on `Less`
relocate (`copy_nonoverlapping`) the element under `a`'s cursor, on `Greater`
the element under `b`'s cursor, on `Equal` relocate `a`'s element and
`drop_in_place` the duplicate under `b`'s cursor; when one cursor is exhausted
the other cursor's remaining span is relocated in bulk. -/
def rawLoop (cmp : α → α → Ordering) : List α → List α → List α
  | [], b => b
  | a, [] => a
  | x :: xs, y :: ys =>
    match cmp x y with
    | .lt => x :: rawLoop cmp xs (y :: ys)
    | .gt => y :: rawLoop cmp (x :: xs) ys
    | .eq => x :: rawLoop cmp xs ys
  termination_by a b => a.length + b.length

/-- `raw_ptr` (lines 197-276): fast paths, then the raw-cursor merge; the final
`set_len` records exactly the elements written, which is what the returned list
holds. -/
def raw_ptr (cmp : α → α → Ordering) (a b : List α) : List α :=
  if a.isEmpty then b
  else if b.isEmpty then a
  else rawLoop cmp a b

/-- The `for elem in a` loop of `old_datafrog` (lines 163-175): before emitting
each element `elem` of `a`, emit every pending element of `b` strictly below
`elem` (`while b.peek() < elem { out.push(b.next()) }`), drop the pending
element of `b` if it compares equal to `elem`, then emit `elem`; after `a` is
exhausted the rest of `b` is appended (`out.extend(b)`). -/
def odMerge (cmp : α → α → Ordering) : List α → List α → List α
  | [], b => b
  | e :: arest, b =>
    let emitted := b.takeWhile fun y => decide (cmp y e = Ordering.lt)
    let pending := b.dropWhile fun y => decide (cmp y e = Ordering.lt)
    let pending2 :=
      match pending with
      | y :: ys => if cmp y e = .eq then ys else y :: ys
      | [] => []
    emitted ++ e :: odMerge cmp arest pending2

/-- `old_datafrog` (lines 140-176): empty-input fast paths; swap the inputs if
`a[0] > b[0]` so the first binding starts with the lesser element; push the
first binding's front; if it equals the second binding's front, also consume
that front; then run the drain loop. -/
def old_datafrog (cmp : α → α → Ordering) : List α → List α → List α
  | [], b => b
  | a, [] => a
  | a0 :: as0, b0 :: bs0 =>
    let p := if cmp a0 b0 = .gt then (b0, bs0, a0 :: as0) else (a0, as0, b0 :: bs0)
    let x := p.1
    let xs := p.2.1
    let rest :=
      match p.2.2 with
      | y :: ys => if cmp x y = .eq then ys else y :: ys
      | [] => []
    x :: odMerge cmp xs rest

/-- Insertion of `x` into a sorted list, keeping `x` before the first element
it does not exceed.  Together with `insSort` this models the `sort_unstable`
call in `naive`: the Rust sort is a black-box comparison sort of the std
library, modelled here by a stable insertion sort. -/
def ordInsert (cmp : α → α → Ordering) (x : α) : List α → List α
  | [] => [x]
  | y :: ys => if cmp x y = .gt then y :: ordInsert cmp x ys else x :: y :: ys

/-- The comparison sort used to model `a.sort_unstable()` in `naive`
(line 5). -/
def insSort (cmp : α → α → Ordering) : List α → List α
  | [] => []
  | x :: xs => ordInsert cmp x (insSort cmp xs)

/-- `Vec::dedup` (line 6): remove all but the first of every run of
consecutive elements that compare equal (`PartialEq`, which Rust's `Ord`
contract requires to coincide with `cmp == Equal`). -/
def dedupAdjBy (cmp : α → α → Ordering) : List α → List α
  | [] => []
  | [x] => [x]
  | x :: y :: rest =>
    if cmp x y = .eq then dedupAdjBy cmp (x :: rest)
    else x :: dedupAdjBy cmp (y :: rest)
  termination_by l => l.length

/-- `naive` (lines 3-8): append `b` to `a`, sort the result, remove adjacent
duplicates. -/
def naive (cmp : α → α → Ordering) (a b : List α) : List α :=
  dedupAdjBy cmp (insSort cmp (a ++ b))

/-- The precondition every strategy shares (spec section 6): each input is
sorted ascending with no adjacent duplicates, i.e. adjacent elements compare
strictly `Less`. -/
def Conforming (cmp : α → α → Ordering) (l : List α) : Prop :=
  l.Chain' fun x y => cmp x y = .lt

instance (cmp : α → α → Ordering) [DecidableEq α] (l : List α) :
    Decidable (Conforming cmp l) := by
  unfold Conforming; infer_instance

/-- Proof-layer device: the plain two-way merge that keeps the left element on
ties and drops nothing.  Sorting the concatenation `a ++ b` of two sorted lists
factors through this merge, which is how `naive` is related to the merge
loops. -/
def mergeB (cmp : α → α → Ordering) : List α → List α → List α
  | [], b => b
  | a, [] => a
  | x :: xs, y :: ys =>
    if cmp x y = .gt then y :: mergeB cmp (x :: xs) ys
    else x :: mergeB cmp xs (y :: ys)
  termination_by a b => a.length + b.length

/-- A storage slot of the two input buffers consumed by `raw_ptr`: `A i` is
the slot at offset `i` from `aptr`, `B j` the slot at offset `j` from
`bptr`. -/
inductive RawSlot where
  | A : Nat → RawSlot
  | B : Nat → RawSlot
deriving DecidableEq

/-- What `raw_ptr` does to an element slot: `reloc` is a
`copy_nonoverlapping` of the element into the output (no destructor runs on
the source slot), `destruct` is the `drop_in_place` of a duplicate. -/
inductive RawAct where
  | reloc : RawAct
  | destruct : RawAct
deriving DecidableEq

/-- Events of the drain phase of `raw_ptr` (lines 258-264): the remaining span
of the unexhausted cursor, starting at offset `i`, is relocated to the output
element by element. -/
def drainEvs (s : Nat → RawSlot) : Nat → List α → List (RawSlot × RawAct)
  | _, [] => []
  | i, _ :: rest => (s i, RawAct.reloc) :: drainEvs s (i + 1) rest

/-- Instrumentation of the `raw_ptr` main loop (lines 222-264): the sequence
of slot consumptions it performs, with `i`, `j` the current offsets of the two
read cursors.  `Less` relocates `A i`; `Greater` relocates `B j`; `Equal`
relocates `A i` and destructs the duplicate in `B j`; the drain phase
relocates every remaining slot of the unexhausted side. -/
def rawTraceLoop (cmp : α → α → Ordering) :
    Nat → Nat → List α → List α → List (RawSlot × RawAct)
  | _, j, [], b => drainEvs RawSlot.B j b
  | i, _, a, [] => drainEvs RawSlot.A i a
  | i, j, x :: xs, y :: ys =>
    match cmp x y with
    | .lt => (RawSlot.A i, RawAct.reloc) :: rawTraceLoop cmp (i + 1) j xs (y :: ys)
    | .gt => (RawSlot.B j, RawAct.reloc) :: rawTraceLoop cmp i (j + 1) (x :: xs) ys
    | .eq =>
      (RawSlot.A i, RawAct.reloc) :: (RawSlot.B j, RawAct.destruct) ::
        rawTraceLoop cmp (i + 1) (j + 1) xs ys
  termination_by _ _ a b => a.length + b.length

/-- The slot consumptions performed by a `raw_ptr` call: on either empty-input
fast path the input vector is returned wholesale and no element slot is
touched; otherwise the main loop runs. -/
def rawTrace (cmp : α → α → Ordering) (a b : List α) : List (RawSlot × RawAct) :=
  if a.isEmpty then []
  else if b.isEmpty then []
  else rawTraceLoop cmp 0 0 a b

/-- A comparator that consults only the first component of a pair: the model
of a Rust `Ord` implementation keyed on part of the value, whose instances
carry identity (the second component) observable beyond the comparison key. -/
def keyCmp : Nat × Nat → Nat × Nat → Ordering :=
  fun p q => compare p.1 q.1

instance : Batteries.TransCmp keyCmp where
  symm p q := @Batteries.OrientedCmp.symm Nat compare _ p.1 q.1
  le_trans h₁ h₂ := @Batteries.TransCmp.le_trans Nat compare _ _ _ _ h₁ h₂

/-- The tie-break contract of spec section 9 ("first-argument element wins on
duplicate"), stated at the level of element instances: every element instance
of the first input `a` survives in the output `out`, and every element of
`out` is either an instance from `a`, or an instance from `b` whose value does
not compare equal to any element of `a` (so the instance from `b` is the one
discarded whenever a value is present in both inputs). -/
def FirstWins (cmp : α → α → Ordering) (a b out : List α) : Prop :=
  (∀ p ∈ a, p ∈ out) ∧ ∀ p ∈ out, p ∈ a ∨ (p ∈ b ∧ ∀ q ∈ a, cmp q p ≠ .eq)

section Lemmas

variable {cmp : α → α → Ordering}

theorem conforming_iff_pairwise [TransCmp cmp] {l : List α} :
    Conforming cmp l ↔ l.Pairwise fun x y => cmp x y = .lt := by
  haveI : IsTrans α (fun x y => cmp x y = .lt) :=
    ⟨fun _ _ _ h₁ h₂ => TransCmp.lt_trans h₁ h₂⟩
  exact List.chain'_iff_pairwise

theorem mergeLoop_nil_left (b : List α) : mergeLoop cmp [] b = b := by
  simp [mergeLoop]

theorem mergeLoop_nil_right (a : List α) : mergeLoop cmp a [] = a := by
  cases a <;> simp [mergeLoop]

theorem mergeLoopSafer_eq (a b : List α) :
    mergeLoopSafer cmp a b = mergeLoop cmp a b := by
  induction a, b using mergeLoop.induct cmp with
  | case1 b => simp [mergeLoopSafer, mergeLoop]
  | case2 a _ => cases a <;> simp [mergeLoopSafer, mergeLoop]
  | case3 x xs y ys hcmp ih => rw [mergeLoopSafer, mergeLoop, hcmp, ih]
  | case4 x xs y ys hcmp ih => rw [mergeLoopSafer, mergeLoop, hcmp, ih]
  | case5 x xs y ys hcmp ih => rw [mergeLoopSafer, mergeLoop, hcmp, ih]

theorem rawLoop_eq (a b : List α) :
    rawLoop cmp a b = mergeLoop cmp a b := by
  induction a, b using mergeLoop.induct cmp with
  | case1 b => simp [rawLoop, mergeLoop]
  | case2 a _ => cases a <;> simp [rawLoop, mergeLoop]
  | case3 x xs y ys hcmp ih => rw [rawLoop, mergeLoop, hcmp, ih]
  | case4 x xs y ys hcmp ih => rw [rawLoop, mergeLoop, hcmp, ih]
  | case5 x xs y ys hcmp ih => rw [rawLoop, mergeLoop, hcmp, ih]

theorem into_iter_eq (a b : List α) :
    into_iter cmp a b = mergeLoop cmp a b := by
  unfold into_iter
  rcases a with _ | ⟨x, xs⟩
  · simp [mergeLoop]
  · rcases b with _ | ⟨y, ys⟩
    · simp [mergeLoop_nil_right]
    · simp [List.isEmpty]

theorem into_iter_safer_eq (a b : List α) :
    into_iter_safer cmp a b = mergeLoop cmp a b := by
  unfold into_iter_safer
  rcases a with _ | ⟨x, xs⟩
  · simp [mergeLoop]
  · rcases b with _ | ⟨y, ys⟩
    · simp [mergeLoop_nil_right]
    · simp [List.isEmpty, mergeLoopSafer_eq]

theorem raw_ptr_eq (a b : List α) :
    raw_ptr cmp a b = mergeLoop cmp a b := by
  unfold raw_ptr
  rcases a with _ | ⟨x, xs⟩
  · simp [mergeLoop]
  · rcases b with _ | ⟨y, ys⟩
    · simp [mergeLoop_nil_right]
    · simp [List.isEmpty, rawLoop_eq]

theorem mem_of_mem_mergeLoop {a b : List α} {z : α}
    (h : z ∈ mergeLoop cmp a b) : z ∈ a ∨ z ∈ b := by
  induction a, b using mergeLoop.induct cmp with
  | case1 b => rw [mergeLoop_nil_left] at h; exact .inr h
  | case2 a _ => rw [mergeLoop_nil_right] at h; exact .inl h
  | case3 x xs y ys hcmp ih =>
    rw [mergeLoop, hcmp] at h
    rcases List.mem_cons.1 h with h | h
    · exact .inl (h ▸ List.mem_cons_self x xs)
    · rcases ih h with h | h
      · exact .inl (List.mem_cons_of_mem _ h)
      · exact .inr h
  | case4 x xs y ys hcmp ih =>
    rw [mergeLoop, hcmp] at h
    rcases List.mem_cons.1 h with h | h
    · exact .inr (h ▸ List.mem_cons_self y ys)
    · rcases ih h with h | h
      · exact .inl h
      · exact .inr (List.mem_cons_of_mem _ h)
  | case5 x xs y ys hcmp ih =>
    rw [mergeLoop, hcmp] at h
    rcases List.mem_cons.1 h with h | h
    · exact .inl (h ▸ List.mem_cons_self x xs)
    · rcases ih h with h | h
      · exact .inl (List.mem_cons_of_mem _ h)
      · exact .inr (List.mem_cons_of_mem _ h)

theorem mem_mergeLoop_iff (heq : ∀ x y : α, cmp x y = .eq → x = y)
    {a b : List α} {z : α} :
    z ∈ mergeLoop cmp a b ↔ z ∈ a ∨ z ∈ b := by
  constructor
  · exact mem_of_mem_mergeLoop
  · intro h
    induction a, b using mergeLoop.induct cmp with
    | case1 b =>
      rw [mergeLoop_nil_left]
      exact h.elim (fun h => absurd h (List.not_mem_nil z)) id
    | case2 a _ =>
      rw [mergeLoop_nil_right]
      exact h.elim id fun h => absurd h (List.not_mem_nil z)
    | case3 x xs y ys hcmp ih =>
      rw [mergeLoop, hcmp]
      rcases h with h | h
      · rcases List.mem_cons.1 h with h | h
        · exact h ▸ List.mem_cons_self _ _
        · exact List.mem_cons_of_mem _ (ih (.inl h))
      · exact List.mem_cons_of_mem _ (ih (.inr h))
    | case4 x xs y ys hcmp ih =>
      rw [mergeLoop, hcmp]
      rcases h with h | h
      · exact List.mem_cons_of_mem _ (ih (.inl h))
      · rcases List.mem_cons.1 h with h | h
        · exact h ▸ List.mem_cons_self _ _
        · exact List.mem_cons_of_mem _ (ih (.inr h))
    | case5 x xs y ys hcmp ih =>
      rw [mergeLoop, hcmp]
      rcases h with h | h
      · rcases List.mem_cons.1 h with h | h
        · exact h ▸ List.mem_cons_self _ _
        · exact List.mem_cons_of_mem _ (ih (.inl h))
      · rcases List.mem_cons.1 h with h | h
        · rw [h, heq x y hcmp]; exact List.mem_cons_self _ _
        · exact List.mem_cons_of_mem _ (ih (.inr h))

theorem mergeLoop_pairwise [TransCmp cmp] {a b : List α}
    (ha : a.Pairwise fun x y => cmp x y = .lt)
    (hb : b.Pairwise fun x y => cmp x y = .lt) :
    (mergeLoop cmp a b).Pairwise fun x y => cmp x y = .lt := by
  induction a, b using mergeLoop.induct cmp with
  | case1 b => rw [mergeLoop_nil_left]; exact hb
  | case2 a _ => rw [mergeLoop_nil_right]; exact ha
  | case3 x xs y ys hcmp ih =>
    rw [mergeLoop, hcmp]
    rw [List.pairwise_cons] at ha
    refine List.pairwise_cons.2 ⟨fun z hz => ?_, ih ha.2 hb⟩
    rcases mem_of_mem_mergeLoop hz with h | h
    · exact ha.1 z h
    · rcases List.mem_cons.1 h with h | h
      · exact h ▸ hcmp
      · exact TransCmp.lt_trans hcmp ((List.pairwise_cons.1 hb).1 z h)
  | case4 x xs y ys hcmp ih =>
    rw [mergeLoop, hcmp]
    rw [List.pairwise_cons] at hb
    refine List.pairwise_cons.2 ⟨fun z hz => ?_, ih ha hb.2⟩
    have hyx : cmp y x = .lt := OrientedCmp.cmp_eq_gt.1 hcmp
    rcases mem_of_mem_mergeLoop hz with h | h
    · rcases List.mem_cons.1 h with h | h
      · exact h ▸ hyx
      · exact TransCmp.lt_trans hyx ((List.pairwise_cons.1 ha).1 z h)
    · exact hb.1 z h
  | case5 x xs y ys hcmp ih =>
    rw [mergeLoop, hcmp]
    rw [List.pairwise_cons] at ha
    rw [List.pairwise_cons] at hb
    refine List.pairwise_cons.2 ⟨fun z hz => ?_, ih ha.2 hb.2⟩
    rcases mem_of_mem_mergeLoop hz with h | h
    · exact ha.1 z h
    · exact (TransCmp.cmp_congr_left hcmp).trans (hb.1 z h)

theorem mergeLoop_length_le (a b : List α) :
    (mergeLoop cmp a b).length ≤ a.length + b.length := by
  induction a, b using mergeLoop.induct cmp with
  | case1 b => rw [mergeLoop_nil_left]; simp
  | case2 a _ => rw [mergeLoop_nil_right]; simp
  | case3 x xs y ys hcmp ih =>
    rw [mergeLoop, hcmp]
    simp only [List.length_cons] at ih ⊢
    omega
  | case4 x xs y ys hcmp ih =>
    rw [mergeLoop, hcmp]
    simp only [List.length_cons] at ih ⊢
    omega
  | case5 x xs y ys hcmp ih =>
    rw [mergeLoop, hcmp]
    simp only [List.length_cons] at ih ⊢
    omega

theorem mergeLoop_self [OrientedCmp cmp] (a : List α) :
    mergeLoop cmp a a = a := by
  induction a with
  | nil => exact mergeLoop_nil_left []
  | cons x xs ih =>
    rw [mergeLoop, show cmp x x = .eq from OrientedCmp.cmp_refl, ih]

theorem mergeLoop_comm (heq : ∀ x y : α, cmp x y = .eq → x = y)
    [OrientedCmp cmp] (a b : List α) :
    mergeLoop cmp a b = mergeLoop cmp b a := by
  induction a, b using mergeLoop.induct cmp with
  | case1 b => rw [mergeLoop_nil_left, mergeLoop_nil_right]
  | case2 a _ => rw [mergeLoop_nil_right, mergeLoop_nil_left]
  | case3 x xs y ys hcmp ih =>
    have h : cmp y x = .gt := OrientedCmp.cmp_eq_gt.2 hcmp
    rw [mergeLoop, hcmp, mergeLoop, h, ih]
  | case4 x xs y ys hcmp ih =>
    have h : cmp y x = .lt := OrientedCmp.cmp_eq_gt.1 hcmp
    rw [mergeLoop, hcmp, mergeLoop, h, ih]
  | case5 x xs y ys hcmp ih =>
    have h : cmp y x = .eq := OrientedCmp.cmp_eq_eq_symm.1 hcmp
    rw [mergeLoop, hcmp, mergeLoop, h, ih, heq x y hcmp]

theorem mem_ordInsert {x z : α} {l : List α} :
    z ∈ ordInsert cmp x l ↔ z = x ∨ z ∈ l := by
  induction l with
  | nil => simp [ordInsert]
  | cons y ys ih =>
    by_cases h : cmp x y = .gt
    · simp only [ordInsert, if_pos h, List.mem_cons, ih]
      tauto
    · simp only [ordInsert, if_neg h, List.mem_cons]

theorem ordInsert_of_forall_le {x : α} {l : List α}
    (h : ∀ z ∈ l, cmp x z ≠ .gt) : ordInsert cmp x l = x :: l := by
  cases l with
  | nil => rfl
  | cons y ys =>
    rw [ordInsert, if_neg (h y (List.mem_cons_self y ys))]

theorem insSort_of_pairwise {l : List α}
    (h : l.Pairwise fun x y => cmp x y ≠ .gt) : insSort cmp l = l := by
  induction l with
  | nil => rfl
  | cons x xs ih =>
    rw [List.pairwise_cons] at h
    rw [insSort, ih h.2, ordInsert_of_forall_le h.1]

theorem mem_insSort {z : α} {l : List α} : z ∈ insSort cmp l ↔ z ∈ l := by
  induction l with
  | nil => simp [insSort]
  | cons x xs ih => simp [insSort, mem_ordInsert, ih]

theorem ordInsert_pairwise [TransCmp cmp] {x : α} {l : List α}
    (h : l.Pairwise fun x y => cmp x y ≠ .gt) :
    (ordInsert cmp x l).Pairwise fun x y => cmp x y ≠ .gt := by
  induction l with
  | nil => simp [ordInsert]
  | cons y ys ih =>
    rw [List.pairwise_cons] at h
    by_cases hxy : cmp x y = .gt
    · rw [ordInsert, if_pos hxy]
      refine List.pairwise_cons.2 ⟨fun z hz => ?_, ih h.2⟩
      rcases mem_ordInsert.1 hz with hz | hz
      · subst hz
        intro hc
        rw [OrientedCmp.cmp_eq_gt.1 hxy] at hc
        simp at hc
      · exact h.1 z hz
    · rw [ordInsert, if_neg hxy]
      refine List.pairwise_cons.2 ⟨fun z hz => ?_, List.pairwise_cons.2 ⟨h.1, h.2⟩⟩
      rcases List.mem_cons.1 hz with hz | hz
      · exact hz ▸ hxy
      · exact TransCmp.le_trans hxy (h.1 z hz)

theorem insSort_pairwise [TransCmp cmp] (l : List α) :
    (insSort cmp l).Pairwise fun x y => cmp x y ≠ .gt := by
  induction l with
  | nil => simp [insSort]
  | cons x xs ih => exact ordInsert_pairwise ih

theorem mergeB_nil_left (b : List α) : mergeB cmp [] b = b := by
  simp [mergeB]

theorem mergeB_nil_right (a : List α) : mergeB cmp a [] = a := by
  cases a <;> simp [mergeB]

theorem dedupAdjBy_nil : dedupAdjBy cmp [] = [] := by
  simp [dedupAdjBy]

theorem dedupAdjBy_single (x : α) : dedupAdjBy cmp [x] = [x] := by
  simp [dedupAdjBy]

theorem mem_of_mem_mergeB {a b : List α} {z : α}
    (h : z ∈ mergeB cmp a b) : z ∈ a ∨ z ∈ b := by
  induction a, b using mergeB.induct cmp with
  | case1 b => rw [mergeB_nil_left] at h; exact .inr h
  | case2 a h' =>
    rw [mergeB_nil_right] at h
    exact .inl h
  | case3 x xs y ys hcmp ih =>
    rw [mergeB, if_pos hcmp] at h
    rcases List.mem_cons.1 h with h | h
    · exact .inr (h ▸ List.mem_cons_self y ys)
    · rcases ih h with h | h
      · exact .inl h
      · exact .inr (List.mem_cons_of_mem _ h)
  | case4 x xs y ys hcmp ih =>
    rw [mergeB, if_neg hcmp] at h
    rcases List.mem_cons.1 h with h | h
    · exact .inl (h ▸ List.mem_cons_self x xs)
    · rcases ih h with h | h
      · exact .inl (List.mem_cons_of_mem _ h)
      · exact .inr h

theorem ordInsert_mergeB [TransCmp cmp] {x : α} {xs : List α}
    (hx : ∀ z ∈ xs, cmp x z ≠ .gt) (b : List α) :
    ordInsert cmp x (mergeB cmp xs b) = mergeB cmp (x :: xs) b := by
  induction b with
  | nil =>
    rw [show mergeB cmp xs [] = xs by cases xs <;> simp [mergeB],
      show mergeB cmp (x :: xs) [] = x :: xs by simp [mergeB],
      ordInsert_of_forall_le hx]
  | cons y ys ih =>
    by_cases hxy : cmp x y = .gt
    · have hyx : cmp y x = .lt := OrientedCmp.cmp_eq_gt.1 hxy
      have hxs : mergeB cmp xs (y :: ys) = y :: mergeB cmp xs ys := by
        cases xs with
        | nil => simp [mergeB]
        | cons z zs =>
          rw [mergeB, if_pos ?_]
          exact OrientedCmp.cmp_eq_gt.2
            (TransCmp.lt_le_trans hyx (hx z (List.mem_cons_self z zs)))
      rw [hxs, ordInsert, if_pos hxy, ih, mergeB, if_pos hxy]
    · rw [mergeB, if_neg hxy]
      cases xs with
      | nil =>
        rw [show mergeB cmp [] (y :: ys) = y :: ys from by simp [mergeB],
          ordInsert, if_neg hxy]
      | cons z zs =>
        have hxz : cmp x z ≠ .gt := hx z (List.mem_cons_self z zs)
        by_cases hzy : cmp z y = .gt
        · rw [mergeB, if_pos hzy, ordInsert, if_neg hxy]
        · rw [mergeB, if_neg hzy, ordInsert, if_neg hxz]

theorem insSort_append [TransCmp cmp] {a b : List α}
    (ha : a.Pairwise fun x y => cmp x y ≠ .gt)
    (hb : b.Pairwise fun x y => cmp x y ≠ .gt) :
    insSort cmp (a ++ b) = mergeB cmp a b := by
  induction a with
  | nil => simpa [insSort, mergeB] using insSort_of_pairwise hb
  | cons x xs ih =>
    rw [List.pairwise_cons] at ha
    rw [List.cons_append, insSort, ih ha.2, ordInsert_mergeB ha.1]

theorem dedupAdjBy_cons_of_ne {x : α} {l : List α}
    (h : ∀ z ∈ l, cmp x z ≠ .eq) :
    dedupAdjBy cmp (x :: l) = x :: dedupAdjBy cmp l := by
  cases l with
  | nil => rw [dedupAdjBy_single, dedupAdjBy_nil]
  | cons y ys =>
    rw [dedupAdjBy, if_neg (h y (List.mem_cons_self y ys))]

theorem mem_of_mem_dedupAdjBy {z : α} {l : List α}
    (h : z ∈ dedupAdjBy cmp l) : z ∈ l := by
  induction l using dedupAdjBy.induct cmp with
  | case1 => rw [dedupAdjBy_nil] at h; exact h
  | case2 x => rw [dedupAdjBy_single] at h; exact h
  | case3 x y rest hcmp ih =>
    rw [dedupAdjBy, if_pos hcmp] at h
    rcases List.mem_cons.1 (ih h) with h | h
    · exact h ▸ List.mem_cons_self _ _
    · exact List.mem_cons_of_mem _ (List.mem_cons_of_mem _ h)
  | case4 x y rest hcmp ih =>
    rw [dedupAdjBy, if_neg hcmp] at h
    rcases List.mem_cons.1 h with h | h
    · exact h ▸ List.mem_cons_self _ _
    · exact List.mem_cons_of_mem _ (ih h)

theorem mem_dedupAdjBy_iff (heq : ∀ x y : α, cmp x y = .eq → x = y)
    {z : α} {l : List α} : z ∈ dedupAdjBy cmp l ↔ z ∈ l := by
  refine ⟨mem_of_mem_dedupAdjBy, fun h => ?_⟩
  induction l using dedupAdjBy.induct cmp with
  | case1 => rw [dedupAdjBy_nil]; exact h
  | case2 x => rw [dedupAdjBy_single]; exact h
  | case3 x y rest hcmp ih =>
    rw [dedupAdjBy, if_pos hcmp]
    rcases List.mem_cons.1 h with h | h
    · exact ih (h ▸ List.mem_cons_self _ _)
    · rcases List.mem_cons.1 h with h | h
      · exact ih ((h.trans (heq x y hcmp).symm) ▸ List.mem_cons_self _ _)
      · exact ih (List.mem_cons_of_mem _ h)
  | case4 x y rest hcmp ih =>
    rw [dedupAdjBy, if_neg hcmp]
    rcases List.mem_cons.1 h with h | h
    · exact h ▸ List.mem_cons_self _ _
    · exact List.mem_cons_of_mem _ (ih h)

theorem dedupAdjBy_of_pairwise_lt {l : List α}
    (h : l.Pairwise fun x y => cmp x y = .lt) : dedupAdjBy cmp l = l := by
  induction l using dedupAdjBy.induct cmp with
  | case1 => exact dedupAdjBy_nil
  | case2 x => exact dedupAdjBy_single x
  | case3 x y rest hcmp ih =>
    rw [List.pairwise_cons] at h
    exact absurd (h.1 y (List.mem_cons_self y rest)) (by simp [hcmp])
  | case4 x y rest hcmp ih =>
    rw [List.pairwise_cons] at h
    rw [dedupAdjBy, if_neg hcmp, ih h.2]

theorem dedupAdjBy_pairwise [TransCmp cmp] {l : List α}
    (h : l.Pairwise fun x y => cmp x y ≠ .gt) :
    (dedupAdjBy cmp l).Pairwise fun x y => cmp x y = .lt := by
  induction l using dedupAdjBy.induct cmp with
  | case1 => simp [dedupAdjBy]
  | case2 x => simp [dedupAdjBy]
  | case3 x y rest hcmp ih =>
    rw [dedupAdjBy, if_pos hcmp]
    refine ih ?_
    rw [List.pairwise_cons] at h ⊢
    refine ⟨fun z hz => ?_, (List.pairwise_cons.1 h.2).2⟩
    exact h.1 z (List.mem_cons_of_mem _ hz)
  | case4 x y rest hcmp ih =>
    rw [dedupAdjBy, if_neg hcmp]
    rw [List.pairwise_cons] at h
    have hxy : cmp x y = .lt := by
      rcases hlt : cmp x y with _ | _ | _
      · rfl
      · exact absurd hlt hcmp
      · exact absurd hlt (h.1 y (List.mem_cons_self y rest))
    refine List.pairwise_cons.2 ⟨fun z hz => ?_, ih h.2⟩
    rcases List.mem_cons.1 (mem_of_mem_dedupAdjBy hz) with hz | hz
    · exact hz ▸ hxy
    · exact TransCmp.lt_le_trans hxy ((List.pairwise_cons.1 h.2).1 z hz)

theorem pairwise_lt_le {l : List α}
    (h : l.Pairwise fun x y => cmp x y = .lt) :
    l.Pairwise fun x y => cmp x y ≠ .gt :=
  h.imp fun hxy => by simp [hxy]

theorem mergeB_cons_right_of_gt {xs ys : List α} {y : α}
    (h : ∀ z ∈ xs, cmp z y = .gt) :
    mergeB cmp xs (y :: ys) = y :: mergeB cmp xs ys := by
  cases xs with
  | nil => simp [mergeB]
  | cons z zs => rw [mergeB, if_pos (h z (List.mem_cons_self z zs))]

theorem dedupAdjBy_mergeB [TransCmp cmp] {a b : List α}
    (ha : a.Pairwise fun x y => cmp x y = .lt)
    (hb : b.Pairwise fun x y => cmp x y = .lt) :
    dedupAdjBy cmp (mergeB cmp a b) = mergeLoop cmp a b := by
  induction a, b using mergeLoop.induct cmp with
  | case1 b =>
    rw [mergeLoop_nil_left, show mergeB cmp [] b = b from by simp [mergeB],
      dedupAdjBy_of_pairwise_lt hb]
  | case2 a _ =>
    rw [mergeLoop_nil_right, show mergeB cmp a [] = a from by cases a <;> simp [mergeB],
      dedupAdjBy_of_pairwise_lt ha]
  | case3 x xs y ys hcmp ih =>
    rw [List.pairwise_cons] at ha
    rw [mergeB, if_neg (by simp [hcmp])]
    rw [dedupAdjBy_cons_of_ne, ih ha.2 hb, mergeLoop, hcmp]
    intro z hz
    rcases mem_of_mem_mergeB hz with hz | hz
    · exact fun hc => by simp [ha.1 z hz] at hc
    · rcases List.mem_cons.1 hz with hz | hz
      · exact hz ▸ (by simp [hcmp])
      · have : cmp x z = .lt :=
          TransCmp.lt_trans hcmp ((List.pairwise_cons.1 hb).1 z hz)
        simp [this]
  | case4 x xs y ys hcmp ih =>
    rw [List.pairwise_cons] at hb
    have hyx : cmp y x = .lt := OrientedCmp.cmp_eq_gt.1 hcmp
    rw [mergeB, if_pos hcmp]
    rw [dedupAdjBy_cons_of_ne, ih (List.pairwise_cons.2 ⟨(List.pairwise_cons.1 ha).1,
      (List.pairwise_cons.1 ha).2⟩) hb.2, mergeLoop, hcmp]
    intro z hz
    rcases mem_of_mem_mergeB hz with hz | hz
    · rcases List.mem_cons.1 hz with hz | hz
      · exact hz ▸ (by simp [hyx])
      · have : cmp y z = .lt :=
          TransCmp.lt_trans hyx ((List.pairwise_cons.1 ha).1 z hz)
        simp [this]
    · exact fun hc => by simp [hb.1 z hz] at hc
  | case5 x xs y ys hcmp ih =>
    rw [List.pairwise_cons] at ha
    rw [List.pairwise_cons] at hb
    rw [mergeB, if_neg (by simp [hcmp])]
    have hstep : mergeB cmp xs (y :: ys) = y :: mergeB cmp xs ys := by
      refine mergeB_cons_right_of_gt fun z hz => ?_
      exact OrientedCmp.cmp_eq_gt.2
        ((TransCmp.cmp_congr_left (OrientedCmp.cmp_eq_eq_symm.1 hcmp)).trans (ha.1 z hz))
    rw [hstep, dedupAdjBy, if_pos hcmp, dedupAdjBy_cons_of_ne, ih ha.2 hb.2,
      mergeLoop, hcmp]
    intro z hz
    rcases mem_of_mem_mergeB hz with hz | hz
    · exact fun hc => by simp [ha.1 z hz] at hc
    · have : cmp x z = .lt :=
        (TransCmp.cmp_congr_left hcmp).trans (hb.1 z hz)
      simp [this]

theorem naive_eq_mergeLoop [TransCmp cmp] {a b : List α}
    (ha : a.Pairwise fun x y => cmp x y = .lt)
    (hb : b.Pairwise fun x y => cmp x y = .lt) :
    naive cmp a b = mergeLoop cmp a b := by
  rw [naive, insSort_append (pairwise_lt_le ha) (pairwise_lt_le hb),
    dedupAdjBy_mergeB ha hb]

theorem odMerge_nil_right (e : α) (arest : List α) :
    odMerge cmp (e :: arest) [] = e :: odMerge cmp arest [] := by
  rw [odMerge]
  simp

theorem odMerge_cons_lt {e y : α} {arest ys : List α} (h : cmp y e = .lt) :
    odMerge cmp (e :: arest) (y :: ys) = y :: odMerge cmp (e :: arest) ys := by
  conv_lhs => rw [odMerge]
  conv_rhs => rw [odMerge]
  simp [List.takeWhile_cons, List.dropWhile_cons, h]

theorem odMerge_cons_eq {e y : α} {arest ys : List α} (h : cmp y e = .eq) :
    odMerge cmp (e :: arest) (y :: ys) = e :: odMerge cmp arest ys := by
  rw [odMerge]
  simp [List.takeWhile_cons, List.dropWhile_cons, h]

theorem odMerge_cons_gt {e y : α} {arest ys : List α} (h : cmp y e = .gt) :
    odMerge cmp (e :: arest) (y :: ys) = e :: odMerge cmp arest (y :: ys) := by
  rw [odMerge]
  simp [List.takeWhile_cons, List.dropWhile_cons, h]

theorem odMerge_eq_mergeLoop [OrientedCmp cmp] (a b : List α) :
    odMerge cmp a b = mergeLoop cmp a b := by
  induction a generalizing b with
  | nil => rw [odMerge, mergeLoop_nil_left]
  | cons e arest iha =>
    induction b with
    | nil =>
      rw [mergeLoop_nil_right, odMerge_nil_right, iha, mergeLoop_nil_right]
    | cons y ys ihb =>
      rcases hcye : cmp y e with _ | _ | _
      · rw [odMerge_cons_lt hcye, ihb, mergeLoop,
          OrientedCmp.cmp_eq_gt.2 hcye]
      · rw [odMerge_cons_eq hcye, iha, mergeLoop,
          OrientedCmp.cmp_eq_eq_symm.1 hcye]
      · rw [odMerge_cons_gt hcye, iha, mergeLoop,
          OrientedCmp.cmp_eq_gt.1 hcye]

theorem old_datafrog_cons [OrientedCmp cmp] (a0 b0 : α) (as0 bs0 : List α) :
    old_datafrog cmp (a0 :: as0) (b0 :: bs0) =
      if cmp a0 b0 = .gt then mergeLoop cmp (b0 :: bs0) (a0 :: as0)
      else mergeLoop cmp (a0 :: as0) (b0 :: bs0) := by
  by_cases h : cmp a0 b0 = .gt
  · have hlt : cmp b0 a0 = .lt := OrientedCmp.cmp_eq_gt.1 h
    rw [old_datafrog, if_pos h]
    simp only [if_pos h, show cmp b0 a0 = .eq ↔ False by simp [hlt], if_false,
      if_neg (show ¬cmp b0 a0 = .eq by simp [hlt])]
    rw [odMerge_eq_mergeLoop, mergeLoop, hlt]
  · rw [old_datafrog, if_neg h]
    simp only [if_neg h]
    rcases hc : cmp a0 b0 with _ | _ | _
    · rw [if_neg (by simp [hc]), odMerge_eq_mergeLoop, mergeLoop, hc]
    · rw [if_pos rfl, odMerge_eq_mergeLoop, mergeLoop, hc]
    · exact absurd hc h

theorem old_datafrog_eq_mergeLoop (heq : ∀ x y : α, cmp x y = .eq → x = y)
    [OrientedCmp cmp] (a b : List α) :
    old_datafrog cmp a b = mergeLoop cmp a b := by
  rcases a with _ | ⟨a0, as0⟩
  · rw [old_datafrog, mergeLoop_nil_left]
  · rcases b with _ | ⟨b0, bs0⟩
    · rw [mergeLoop_nil_right]
      simp [old_datafrog]
    · rw [old_datafrog_cons]
      by_cases h : cmp a0 b0 = .gt
      · rw [if_pos h, mergeLoop_comm heq]
      · rw [if_neg h]

theorem mergeLoop_mem_left {a b : List α} : ∀ p ∈ a, p ∈ mergeLoop cmp a b := by
  induction a, b using mergeLoop.induct cmp with
  | case1 b => intro p hp; exact absurd hp (List.not_mem_nil p)
  | case2 a _ => rw [mergeLoop_nil_right]; exact fun p hp => hp
  | case3 x xs y ys hcmp ih =>
    intro p hp
    rw [mergeLoop, hcmp]
    rcases List.mem_cons.1 hp with hp | hp
    · exact hp ▸ List.mem_cons_self _ _
    · exact List.mem_cons_of_mem _ (ih p hp)
  | case4 x xs y ys hcmp ih =>
    intro p hp
    rw [mergeLoop, hcmp]
    exact List.mem_cons_of_mem _ (ih p hp)
  | case5 x xs y ys hcmp ih =>
    intro p hp
    rw [mergeLoop, hcmp]
    rcases List.mem_cons.1 hp with hp | hp
    · exact hp ▸ List.mem_cons_self _ _
    · exact List.mem_cons_of_mem _ (ih p hp)

theorem mergeLoop_wins [TransCmp cmp] {a b : List α}
    (ha : a.Pairwise fun x y => cmp x y = .lt)
    (hb : b.Pairwise fun x y => cmp x y = .lt) :
    ∀ p ∈ mergeLoop cmp a b, p ∈ a ∨ (p ∈ b ∧ ∀ q ∈ a, cmp q p ≠ .eq) := by
  induction a, b using mergeLoop.induct cmp with
  | case1 b =>
    rw [mergeLoop_nil_left]
    exact fun p hp => .inr ⟨hp, fun q hq => absurd hq (List.not_mem_nil q)⟩
  | case2 a _ =>
    rw [mergeLoop_nil_right]
    exact fun p hp => .inl hp
  | case3 x xs y ys hcmp ih =>
    intro p hp
    rw [mergeLoop, hcmp] at hp
    rw [List.pairwise_cons] at ha
    rcases List.mem_cons.1 hp with hp | hp
    · exact .inl (List.mem_cons.2 (.inl hp))
    · rcases ih ha.2 hb p hp with hp | ⟨hp, hq⟩
      · exact .inl (List.mem_cons_of_mem _ hp)
      · refine .inr ⟨hp, fun q hq' => ?_⟩
        rcases List.mem_cons.1 hq' with hq' | hq'
        · rw [hq']
          rcases List.mem_cons.1 hp with hp' | hp'
          · rw [hp']; simp [hcmp]
          · have : cmp x p = .lt :=
              TransCmp.lt_trans hcmp ((List.pairwise_cons.1 hb).1 p hp')
            simp [this]
        · exact hq q hq'
  | case4 x xs y ys hcmp ih =>
    intro p hp
    rw [mergeLoop, hcmp] at hp
    rw [List.pairwise_cons] at hb
    have hyx : cmp y x = .lt := OrientedCmp.cmp_eq_gt.1 hcmp
    rcases List.mem_cons.1 hp with hp | hp
    · refine .inr ⟨List.mem_cons.2 (.inl hp), fun q hq => ?_⟩
      rw [hp]
      rcases List.mem_cons.1 hq with hq | hq
      · rw [hq]; simp [hcmp]
      · have : cmp q y = .gt := by
          refine OrientedCmp.cmp_eq_gt.2 ?_
          exact TransCmp.lt_trans hyx ((List.pairwise_cons.1 ha).1 q hq)
        simp [this]
    · rcases ih ha hb.2 p hp with hp | ⟨hp, hq⟩
      · exact .inl hp
      · exact .inr ⟨List.mem_cons_of_mem _ hp, hq⟩
  | case5 x xs y ys hcmp ih =>
    intro p hp
    rw [mergeLoop, hcmp] at hp
    rw [List.pairwise_cons] at ha
    rw [List.pairwise_cons] at hb
    rcases List.mem_cons.1 hp with hp | hp
    · exact .inl (List.mem_cons.2 (.inl hp))
    · rcases ih ha.2 hb.2 p hp with hp | ⟨hp, hq⟩
      · exact .inl (List.mem_cons_of_mem _ hp)
      · refine .inr ⟨List.mem_cons_of_mem _ hp, fun q hq' => ?_⟩
        rcases List.mem_cons.1 hq' with hq' | hq'
        · rw [hq']
          have : cmp x p = .lt :=
            (TransCmp.cmp_congr_left hcmp).trans (hb.1 p hp)
          simp [this]
        · exact hq q hq'

theorem mergeLoop_head_of_le {x y : α} {xs ys : List α}
    (h : cmp x y ≠ .gt) :
    (mergeLoop cmp (x :: xs) (y :: ys)).head? = some x := by
  rcases hc : cmp x y with _ | _ | _
  · rw [mergeLoop, hc]; rfl
  · rw [mergeLoop, hc]; rfl
  · exact absurd hc h

theorem naive_nil_right [TransCmp cmp] {a : List α}
    (ha : a.Pairwise fun x y => cmp x y = .lt) : naive cmp a [] = a := by
  rw [naive, List.append_nil, insSort_of_pairwise (pairwise_lt_le ha),
    dedupAdjBy_of_pairwise_lt ha]

theorem naive_nil_left [TransCmp cmp] {b : List α}
    (hb : b.Pairwise fun x y => cmp x y = .lt) : naive cmp [] b = b := by
  rw [naive, List.nil_append, insSort_of_pairwise (pairwise_lt_le hb),
    dedupAdjBy_of_pairwise_lt hb]

theorem drainEvs_countP_destruct (s : Nat → RawSlot) (i : Nat) (l : List α) :
    (drainEvs s i l).countP (fun e => decide (e.2 = RawAct.destruct)) = 0 := by
  induction l generalizing i with
  | nil => rfl
  | cons x rest ih => simp [drainEvs, List.countP_cons, ih]

theorem drainEvs_countP_reloc (s : Nat → RawSlot) (i : Nat) (l : List α) :
    (drainEvs s i l).countP (fun e => decide (e.2 = RawAct.reloc)) = l.length := by
  induction l generalizing i with
  | nil => rfl
  | cons x rest ih => simp [drainEvs, List.countP_cons, ih]

theorem rawTraceLoop_destruct_length (i j : Nat) (a b : List α) :
    (rawTraceLoop cmp i j a b).countP (fun e => decide (e.2 = RawAct.destruct))
      + (mergeLoop cmp a b).length = a.length + b.length := by
  induction i, j, a, b using rawTraceLoop.induct cmp with
  | case1 i j b =>
    rw [rawTraceLoop, mergeLoop_nil_left, drainEvs_countP_destruct]
    simp
  | case2 i j a _ =>
    rw [mergeLoop_nil_right, show rawTraceLoop cmp i j a [] = drainEvs RawSlot.A i a
      from by cases a <;> simp [rawTraceLoop, drainEvs], drainEvs_countP_destruct]
    simp
  | case3 i j x xs y ys hcmp ih =>
    rw [rawTraceLoop, hcmp, mergeLoop, hcmp]
    simp only [List.countP_cons, List.length_cons, decide_eq_true_eq]
    simp only [List.length_cons] at ih
    simp only [show (¬(RawAct.reloc = RawAct.destruct)) from by simp, if_false, if_neg,
      if_true]
    omega
  | case4 i j x xs y ys hcmp ih =>
    rw [rawTraceLoop, hcmp, mergeLoop, hcmp]
    simp only [List.countP_cons, List.length_cons, decide_eq_true_eq]
    simp only [List.length_cons] at ih
    simp only [show (¬(RawAct.reloc = RawAct.destruct)) from by simp, if_false, if_neg,
      if_true]
    omega
  | case5 i j x xs y ys hcmp ih =>
    rw [rawTraceLoop, hcmp, mergeLoop, hcmp]
    simp only [List.countP_cons, List.length_cons, decide_eq_true_eq]
    simp only [List.length_cons] at ih
    simp only [show (¬(RawAct.reloc = RawAct.destruct)) from by simp, if_false, if_neg,
      if_true]
    omega

theorem rawTraceLoop_reloc_length (i j : Nat) (a b : List α) :
    (rawTraceLoop cmp i j a b).countP (fun e => decide (e.2 = RawAct.reloc))
      = (mergeLoop cmp a b).length := by
  induction i, j, a, b using rawTraceLoop.induct cmp with
  | case1 i j b =>
    rw [rawTraceLoop, mergeLoop_nil_left, drainEvs_countP_reloc]
  | case2 i j a _ =>
    rw [mergeLoop_nil_right, show rawTraceLoop cmp i j a [] = drainEvs RawSlot.A i a
      from by cases a <;> simp [rawTraceLoop, drainEvs], drainEvs_countP_reloc]
  | case3 i j x xs y ys hcmp ih =>
    rw [rawTraceLoop, hcmp, mergeLoop, hcmp]
    simp only [List.countP_cons, List.length_cons, decide_eq_true_eq]
    simp only [if_pos rfl, if_true, ih]
  | case4 i j x xs y ys hcmp ih =>
    rw [rawTraceLoop, hcmp, mergeLoop, hcmp]
    simp only [List.countP_cons, List.length_cons, decide_eq_true_eq]
    simp only [if_pos rfl, if_true, ih]
  | case5 i j x xs y ys hcmp ih =>
    rw [rawTraceLoop, hcmp, mergeLoop, hcmp]
    simp only [List.countP_cons, List.length_cons, decide_eq_true_eq]
    simp only [show (¬(RawAct.destruct = RawAct.reloc)) from by simp, if_false, if_neg,
      if_pos rfl, if_true, ih]

theorem count_drainEvs_A_A (k : Nat) (l : List α) :
    ∀ i, ((drainEvs RawSlot.A i l).map Prod.fst).count (RawSlot.A k)
      = if i ≤ k ∧ k < i + l.length then 1 else 0 := by
  induction l with
  | nil =>
    intro i
    simp only [drainEvs, List.map_nil, List.count_nil, List.length_nil, Nat.add_zero]
    split_ifs <;> omega
  | cons x rest ih =>
    intro i
    simp only [drainEvs, List.map_cons, List.count_cons, ih (i + 1),
      List.length_cons, beq_iff_eq, RawSlot.A.injEq]
    split_ifs <;> omega

theorem count_drainEvs_B_A (k : Nat) (l : List α) :
    ∀ j, ((drainEvs RawSlot.B j l).map Prod.fst).count (RawSlot.A k) = 0 := by
  induction l with
  | nil => intro j; simp [drainEvs]
  | cons x rest ih =>
    intro j
    simp [drainEvs, List.count_cons, ih (j + 1)]

theorem count_drainEvs_B_B (k : Nat) (l : List α) :
    ∀ j, ((drainEvs RawSlot.B j l).map Prod.fst).count (RawSlot.B k)
      = if j ≤ k ∧ k < j + l.length then 1 else 0 := by
  induction l with
  | nil =>
    intro j
    simp only [drainEvs, List.map_nil, List.count_nil, List.length_nil, Nat.add_zero]
    split_ifs <;> omega
  | cons x rest ih =>
    intro j
    simp only [drainEvs, List.map_cons, List.count_cons, ih (j + 1),
      List.length_cons, beq_iff_eq, RawSlot.B.injEq]
    split_ifs <;> omega

theorem count_drainEvs_A_B (k : Nat) (l : List α) :
    ∀ i, ((drainEvs RawSlot.A i l).map Prod.fst).count (RawSlot.B k) = 0 := by
  induction l with
  | nil => intro i; simp [drainEvs]
  | cons x rest ih =>
    intro i
    simp [drainEvs, List.count_cons, ih (i + 1)]

theorem rawTraceLoop_count_A (k i j : Nat) (a b : List α) :
    ((rawTraceLoop cmp i j a b).map Prod.fst).count (RawSlot.A k)
      = if i ≤ k ∧ k < i + a.length then 1 else 0 := by
  induction i, j, a, b using rawTraceLoop.induct cmp with
  | case1 i j b =>
    rw [rawTraceLoop, count_drainEvs_B_A]
    simp only [List.length_nil, Nat.add_zero]
    split_ifs <;> omega
  | case2 i j a _ =>
    rw [show rawTraceLoop cmp i j a [] = drainEvs RawSlot.A i a
      from by cases a <;> simp [rawTraceLoop, drainEvs], count_drainEvs_A_A]
  | case3 i j x xs y ys hcmp ih =>
    rw [rawTraceLoop, hcmp]
    simp only [List.map_cons, List.count_cons, ih, List.length_cons,
      beq_iff_eq, RawSlot.A.injEq]
    split_ifs <;> omega
  | case4 i j x xs y ys hcmp ih =>
    rw [rawTraceLoop, hcmp]
    simpa [List.count_cons] using ih
  | case5 i j x xs y ys hcmp ih =>
    rw [rawTraceLoop, hcmp]
    simp only [List.map_cons, List.count_cons, List.length_cons,
      beq_iff_eq, RawSlot.A.injEq, reduceCtorEq, if_false]
    rw [ih]
    split_ifs <;> omega

theorem rawTraceLoop_count_B (k i j : Nat) (a b : List α) :
    ((rawTraceLoop cmp i j a b).map Prod.fst).count (RawSlot.B k)
      = if j ≤ k ∧ k < j + b.length then 1 else 0 := by
  induction i, j, a, b using rawTraceLoop.induct cmp with
  | case1 i j b =>
    rw [rawTraceLoop, count_drainEvs_B_B]
  | case2 i j a _ =>
    rw [show rawTraceLoop cmp i j a [] = drainEvs RawSlot.A i a
      from by cases a <;> simp [rawTraceLoop, drainEvs], count_drainEvs_A_B]
    simp only [List.length_nil, Nat.add_zero]
    split_ifs <;> omega
  | case3 i j x xs y ys hcmp ih =>
    rw [rawTraceLoop, hcmp]
    simpa [List.count_cons] using ih
  | case4 i j x xs y ys hcmp ih =>
    rw [rawTraceLoop, hcmp]
    simp only [List.map_cons, List.count_cons, ih, List.length_cons,
      beq_iff_eq, RawSlot.B.injEq]
    split_ifs <;> omega
  | case5 i j x xs y ys hcmp ih =>
    rw [rawTraceLoop, hcmp]
    simp only [List.map_cons, List.count_cons, List.length_cons,
      beq_iff_eq, RawSlot.B.injEq, reduceCtorEq, if_false]
    rw [ih]
    split_ifs <;> omega

end Lemmas

section LinearOrderLemmas

variable {β : Type*} [LinearOrder β]

theorem compare_eq_imp_eq : ∀ x y : β, compare x y = .eq → x = y :=
  fun _ _ h => compare_eq_iff_eq.1 h

theorem pairwise_compare_nodup {l : List β}
    (h : l.Pairwise fun x y => compare x y = .lt) : l.Nodup :=
  h.imp fun hxy => ne_of_lt (compare_lt_iff_lt.1 hxy)

theorem mergeLoop_length_inter {a b : List β}
    (ha : a.Pairwise fun x y => compare x y = .lt)
    (hb : b.Pairwise fun x y => compare x y = .lt) :
    (mergeLoop compare a b).length + (a.toFinset ∩ b.toFinset).card
      = a.length + b.length := by
  have hno : (mergeLoop compare a b).Nodup :=
    pairwise_compare_nodup (mergeLoop_pairwise ha hb)
  have hset : (mergeLoop compare a b).toFinset = a.toFinset ∪ b.toFinset := by
    ext z
    simp [List.mem_toFinset, mem_mergeLoop_iff compare_eq_imp_eq]
  calc (mergeLoop compare a b).length + (a.toFinset ∩ b.toFinset).card
      = (mergeLoop compare a b).toFinset.card + (a.toFinset ∩ b.toFinset).card := by
        rw [List.toFinset_card_of_nodup hno]
    _ = (a.toFinset ∪ b.toFinset).card + (a.toFinset ∩ b.toFinset).card := by rw [hset]
    _ = a.toFinset.card + b.toFinset.card := Finset.card_union_add_card_inter _ _
    _ = a.length + b.length := by
        rw [List.toFinset_card_of_nodup (pairwise_compare_nodup ha),
          List.toFinset_card_of_nodup (pairwise_compare_nodup hb)]

end LinearOrderLemmas

section Claims

variable {γ : Type*} [LinearOrder γ]

/-- Claim C1: for all input sequences `A` and `B` that are each sorted
ascending with no adjacent duplicates, each optimized strategy (`into_iter`,
`into_iter_safer`, `old_datafrog`, `raw_ptr`) returns exactly the same
sequence, element-for-element in order, as the baseline strategy
`naive(A, B)`. -/
theorem c1_equivalence (a b : List γ)
    (ha : Conforming compare a) (hb : Conforming compare b) :
    into_iter compare a b = naive compare a b
    ∧ into_iter_safer compare a b = naive compare a b
    ∧ old_datafrog compare a b = naive compare a b
    ∧ raw_ptr compare a b = naive compare a b := by
  rw [conforming_iff_pairwise] at ha hb
  have hn := naive_eq_mergeLoop ha hb
  exact ⟨by rw [into_iter_eq, hn], by rw [into_iter_safer_eq, hn],
    by rw [old_datafrog_eq_mergeLoop compare_eq_imp_eq, hn], by rw [raw_ptr_eq, hn]⟩

theorem c1_equivalence_witness :
    Conforming compare [1, 2, 3]
    ∧ Conforming compare ([2, 3, 4] : List Nat)
    ∧ (into_iter compare [1, 2, 3] [2, 3, 4] = naive compare [1, 2, 3] [2, 3, 4]
      ∧ into_iter_safer compare [1, 2, 3] [2, 3, 4] = naive compare [1, 2, 3] [2, 3, 4]
      ∧ old_datafrog compare [1, 2, 3] [2, 3, 4] = naive compare [1, 2, 3] [2, 3, 4]
      ∧ raw_ptr compare [1, 2, 3] [2, 3, 4] = naive compare [1, 2, 3] [2, 3, 4]) :=
  ⟨by simp [Conforming, compare, compareOfLessAndEq],
    by simp [Conforming, compare, compareOfLessAndEq],
    c1_equivalence [1, 2, 3] [2, 3, 4]
      (by simp [Conforming, compare, compareOfLessAndEq])
      (by simp [Conforming, compare, compareOfLessAndEq])⟩

/-- Claim C2: for all input sequences `A` and `B` that are each sorted
ascending with no adjacent duplicates, the output of every strategy is
strictly ascending: no two adjacent output elements compare equal. -/
theorem c2_sorted (a b : List γ)
    (ha : Conforming compare a) (hb : Conforming compare b) :
    Conforming compare (naive compare a b)
    ∧ Conforming compare (into_iter compare a b)
    ∧ Conforming compare (into_iter_safer compare a b)
    ∧ Conforming compare (old_datafrog compare a b)
    ∧ Conforming compare (raw_ptr compare a b) := by
  rw [conforming_iff_pairwise] at ha hb
  have hml : Conforming compare (mergeLoop compare a b) :=
    conforming_iff_pairwise.2 (mergeLoop_pairwise ha hb)
  exact ⟨by rw [naive_eq_mergeLoop ha hb]; exact hml,
    by rw [into_iter_eq]; exact hml,
    by rw [into_iter_safer_eq]; exact hml,
    by rw [old_datafrog_eq_mergeLoop compare_eq_imp_eq]; exact hml,
    by rw [raw_ptr_eq]; exact hml⟩

theorem c2_sorted_witness :
    Conforming compare [1, 3, 5]
    ∧ Conforming compare ([2, 3] : List Nat)
    ∧ (Conforming compare (naive compare [1, 3, 5] [2, 3])
      ∧ Conforming compare (into_iter compare [1, 3, 5] [2, 3])
      ∧ Conforming compare (into_iter_safer compare [1, 3, 5] [2, 3])
      ∧ Conforming compare (old_datafrog compare [1, 3, 5] [2, 3])
      ∧ Conforming compare (raw_ptr compare [1, 3, 5] [2, 3])) :=
  ⟨by simp [Conforming, compare, compareOfLessAndEq],
    by simp [Conforming, compare, compareOfLessAndEq],
    c2_sorted [1, 3, 5] [2, 3]
      (by simp [Conforming, compare, compareOfLessAndEq])
      (by simp [Conforming, compare, compareOfLessAndEq])⟩

/-- Claim C3: for all input sequences `A` and `B` that are each sorted
ascending with no adjacent duplicates, the length of every strategy's output
equals `len(A) + len(B)` minus the number of values present in both `A` and
`B`; in particular the output length never exceeds `len(A) + len(B)`. -/
theorem c3_union_size (a b : List γ)
    (ha : Conforming compare a) (hb : Conforming compare b) :
    ((naive compare a b).length
        = a.length + b.length - (a.toFinset ∩ b.toFinset).card
      ∧ (into_iter compare a b).length
        = a.length + b.length - (a.toFinset ∩ b.toFinset).card
      ∧ (into_iter_safer compare a b).length
        = a.length + b.length - (a.toFinset ∩ b.toFinset).card
      ∧ (old_datafrog compare a b).length
        = a.length + b.length - (a.toFinset ∩ b.toFinset).card
      ∧ (raw_ptr compare a b).length
        = a.length + b.length - (a.toFinset ∩ b.toFinset).card)
    ∧ (naive compare a b).length ≤ a.length + b.length
    ∧ (into_iter compare a b).length ≤ a.length + b.length
    ∧ (into_iter_safer compare a b).length ≤ a.length + b.length
    ∧ (old_datafrog compare a b).length ≤ a.length + b.length
    ∧ (raw_ptr compare a b).length ≤ a.length + b.length := by
  rw [conforming_iff_pairwise] at ha hb
  have hkey := mergeLoop_length_inter ha hb
  have heqn : (mergeLoop compare a b).length
      = a.length + b.length - (a.toFinset ∩ b.toFinset).card := by omega
  have hle : (mergeLoop compare a b).length ≤ a.length + b.length := by omega
  rw [naive_eq_mergeLoop ha hb, into_iter_eq, into_iter_safer_eq,
    old_datafrog_eq_mergeLoop compare_eq_imp_eq, raw_ptr_eq]
  exact ⟨⟨heqn, heqn, heqn, heqn, heqn⟩, hle, hle, hle, hle, hle⟩

theorem c3_union_size_witness :
    Conforming compare [1, 2, 3]
    ∧ Conforming compare ([2, 3, 4] : List Nat)
    ∧ (((naive compare [1, 2, 3] [2, 3, 4]).length
        = [1, 2, 3].length + [2, 3, 4].length
          - ([1, 2, 3].toFinset ∩ [2, 3, 4].toFinset).card
      ∧ (into_iter compare [1, 2, 3] [2, 3, 4]).length
        = [1, 2, 3].length + [2, 3, 4].length
          - ([1, 2, 3].toFinset ∩ [2, 3, 4].toFinset).card
      ∧ (into_iter_safer compare [1, 2, 3] [2, 3, 4]).length
        = [1, 2, 3].length + [2, 3, 4].length
          - ([1, 2, 3].toFinset ∩ [2, 3, 4].toFinset).card
      ∧ (old_datafrog compare [1, 2, 3] [2, 3, 4]).length
        = [1, 2, 3].length + [2, 3, 4].length
          - ([1, 2, 3].toFinset ∩ [2, 3, 4].toFinset).card
      ∧ (raw_ptr compare [1, 2, 3] [2, 3, 4]).length
        = [1, 2, 3].length + [2, 3, 4].length
          - ([1, 2, 3].toFinset ∩ [2, 3, 4].toFinset).card)
    ∧ (naive compare [1, 2, 3] [2, 3, 4]).length ≤ [1, 2, 3].length + [2, 3, 4].length
    ∧ (into_iter compare [1, 2, 3] [2, 3, 4]).length ≤ [1, 2, 3].length + [2, 3, 4].length
    ∧ (into_iter_safer compare [1, 2, 3] [2, 3, 4]).length
      ≤ [1, 2, 3].length + [2, 3, 4].length
    ∧ (old_datafrog compare [1, 2, 3] [2, 3, 4]).length
      ≤ [1, 2, 3].length + [2, 3, 4].length
    ∧ (raw_ptr compare [1, 2, 3] [2, 3, 4]).length
      ≤ [1, 2, 3].length + [2, 3, 4].length) :=
  ⟨by simp [Conforming, compare, compareOfLessAndEq],
    by simp [Conforming, compare, compareOfLessAndEq],
    c3_union_size [1, 2, 3] [2, 3, 4]
      (by simp [Conforming, compare, compareOfLessAndEq])
      (by simp [Conforming, compare, compareOfLessAndEq])⟩

/-- Claim C7: for arbitrary inputs `A` and `B` (even non-conforming ones), the
number of elements written into the output buffer by `into_iter`,
`into_iter_safer`, and `raw_ptr` never exceeds the reserved capacity
`len(A) + len(B)`: every main-loop iteration writes at most one element while
consuming at least one input element, so each unchecked push and the final
length update stay within capacity. -/
theorem c7_capacity {α : Type*} (cmp : α → α → Ordering) (a b : List α) :
    (into_iter cmp a b).length ≤ a.length + b.length
    ∧ (into_iter_safer cmp a b).length ≤ a.length + b.length
    ∧ (raw_ptr cmp a b).length ≤ a.length + b.length := by
  rw [into_iter_eq, into_iter_safer_eq, raw_ptr_eq]
  exact ⟨mergeLoop_length_le a b, mergeLoop_length_le a b, mergeLoop_length_le a b⟩

/-- Claim C9: the baseline strategy `naive` is well-defined without any
precondition: for arbitrary inputs `A` and `B`, including unsorted or
duplicate-containing ones, `naive(A, B)` returns the strictly sorted,
duplicate-free sequence of all distinct values occurring in `A` or `B` (the
sort-then-dedup of their concatenation). -/
theorem c9_naive_total (a b : List γ) :
    Conforming compare (naive compare a b)
    ∧ (∀ z : γ, z ∈ naive compare a b ↔ z ∈ a ∨ z ∈ b)
    ∧ naive compare a b = dedupAdjBy compare (insSort compare (a ++ b)) := by
  refine ⟨?_, fun z => ?_, rfl⟩
  · rw [conforming_iff_pairwise]
    exact dedupAdjBy_pairwise (insSort_pairwise _)
  · rw [naive, mem_dedupAdjBy_iff compare_eq_imp_eq, mem_insSort, List.mem_append]

/-- Claim C5: for every strategy and every conforming sequence `S`, merging
`S` with an empty sequence in either argument position returns `S` itself;
in the embedding the early-return fast paths (and, for the baseline, sorting
and deduplicating an already-sorted list) return the input value unchanged. -/
theorem c5_empty_identity {α : Type*} (cmp : α → α → Ordering) [TransCmp cmp]
    (s : List α) (hs : Conforming cmp s) :
    (into_iter cmp s [] = s ∧ into_iter cmp [] s = s)
    ∧ (into_iter_safer cmp s [] = s ∧ into_iter_safer cmp [] s = s)
    ∧ (old_datafrog cmp s [] = s ∧ old_datafrog cmp [] s = s)
    ∧ (raw_ptr cmp s [] = s ∧ raw_ptr cmp [] s = s)
    ∧ (naive cmp s [] = s ∧ naive cmp [] s = s) := by
  rw [conforming_iff_pairwise] at hs
  refine ⟨⟨?_, ?_⟩, ⟨?_, ?_⟩, ⟨?_, ?_⟩, ⟨?_, ?_⟩, ⟨?_, ?_⟩⟩
  · rw [into_iter_eq, mergeLoop_nil_right]
  · rw [into_iter_eq, mergeLoop_nil_left]
  · rw [into_iter_safer_eq, mergeLoop_nil_right]
  · rw [into_iter_safer_eq, mergeLoop_nil_left]
  · cases s <;> simp [old_datafrog]
  · simp [old_datafrog]
  · rw [raw_ptr_eq, mergeLoop_nil_right]
  · rw [raw_ptr_eq, mergeLoop_nil_left]
  · exact naive_nil_right hs
  · exact naive_nil_left hs

theorem c5_empty_identity_witness :
    Conforming compare ([5, 7] : List Nat)
    ∧ ((into_iter compare [5, 7] [] = [5, 7] ∧ into_iter compare [] [5, 7] = [5, 7])
      ∧ (into_iter_safer compare [5, 7] [] = [5, 7]
        ∧ into_iter_safer compare [] [5, 7] = [5, 7])
      ∧ (old_datafrog compare [5, 7] [] = [5, 7]
        ∧ old_datafrog compare [] [5, 7] = [5, 7])
      ∧ (raw_ptr compare [5, 7] [] = [5, 7] ∧ raw_ptr compare [] [5, 7] = [5, 7])
      ∧ (naive compare [5, 7] [] = [5, 7] ∧ naive compare [] [5, 7] = [5, 7])) :=
  ⟨by simp [Conforming, compare, compareOfLessAndEq],
    c5_empty_identity compare [5, 7]
      (by simp [Conforming, compare, compareOfLessAndEq])⟩

/-- Claim C10: merging is idempotent for every strategy: for every sequence
`A` that is sorted ascending with no adjacent duplicates,
`merge(A, A) = A` (every element of the second copy is discarded as a
duplicate). -/
theorem c10_idempotent {α : Type*} (cmp : α → α → Ordering) [TransCmp cmp]
    (a : List α) (ha : Conforming cmp a) :
    into_iter cmp a a = a ∧ into_iter_safer cmp a a = a ∧ raw_ptr cmp a a = a
    ∧ old_datafrog cmp a a = a ∧ naive cmp a a = a := by
  rw [conforming_iff_pairwise] at ha
  have hm : mergeLoop cmp a a = a := mergeLoop_self a
  refine ⟨by rw [into_iter_eq, hm], by rw [into_iter_safer_eq, hm],
    by rw [raw_ptr_eq, hm], ?_, by rw [naive_eq_mergeLoop ha ha, hm]⟩
  rcases a with _ | ⟨a0, as0⟩
  · simp [old_datafrog]
  · rw [old_datafrog_cons, if_neg (by simp [OrientedCmp.cmp_refl]), hm]

theorem c10_idempotent_witness :
    Conforming compare ([1, 3, 5] : List Nat)
    ∧ (into_iter compare [1, 3, 5] [1, 3, 5] = [1, 3, 5]
      ∧ into_iter_safer compare [1, 3, 5] [1, 3, 5] = [1, 3, 5]
      ∧ raw_ptr compare [1, 3, 5] [1, 3, 5] = [1, 3, 5]
      ∧ old_datafrog compare [1, 3, 5] [1, 3, 5] = [1, 3, 5]
      ∧ naive compare [1, 3, 5] [1, 3, 5] = [1, 3, 5]) :=
  ⟨by simp [Conforming, compare, compareOfLessAndEq],
    c10_idempotent compare [1, 3, 5]
      (by simp [Conforming, compare, compareOfLessAndEq])⟩

/-- Claim C8: in the drain-based merge `old_datafrog`, on conforming
non-empty inputs: if `front(A) > front(B)` the two input bindings are swapped
(the call behaves as the call with swapped arguments); the first element
pushed to the output is the lesser of the two original fronts, and it is a
minimum of the whole union; and if that first element compares equal to the
remaining input's front, that front element is consumed without being emitted
(the merge continues on both tails). -/
theorem c8_normalization {α : Type*} (cmp : α → α → Ordering) [TransCmp cmp]
    (a0 b0 : α) (as0 bs0 : List α)
    (ha : Conforming cmp (a0 :: as0)) (hb : Conforming cmp (b0 :: bs0)) :
    (cmp a0 b0 = .gt →
      old_datafrog cmp (a0 :: as0) (b0 :: bs0)
        = old_datafrog cmp (b0 :: bs0) (a0 :: as0))
    ∧ (old_datafrog cmp (a0 :: as0) (b0 :: bs0)).head?
        = some (if cmp a0 b0 = .gt then b0 else a0)
    ∧ (∀ z ∈ a0 :: as0, cmp (if cmp a0 b0 = .gt then b0 else a0) z ≠ .gt)
    ∧ (∀ z ∈ b0 :: bs0, cmp (if cmp a0 b0 = .gt then b0 else a0) z ≠ .gt)
    ∧ (cmp a0 b0 = .eq →
      old_datafrog cmp (a0 :: as0) (b0 :: bs0) = a0 :: odMerge cmp as0 bs0) := by
  rw [conforming_iff_pairwise] at ha hb
  rw [List.pairwise_cons] at ha hb
  refine ⟨?_, ?_, ?_, ?_, ?_⟩
  · intro h
    rw [old_datafrog_cons, old_datafrog_cons, if_pos h,
      if_neg (by simp [OrientedCmp.cmp_eq_gt.1 h])]
  · by_cases h : cmp a0 b0 = .gt
    · rw [old_datafrog_cons, if_pos h, if_pos h]
      exact mergeLoop_head_of_le (by simp [OrientedCmp.cmp_eq_gt.1 h])
    · rw [old_datafrog_cons, if_neg h, if_neg h]
      exact mergeLoop_head_of_le h
  · intro z hz
    by_cases h : cmp a0 b0 = .gt
    · rw [if_pos h]
      have hlt : cmp b0 a0 = .lt := OrientedCmp.cmp_eq_gt.1 h
      rcases List.mem_cons.1 hz with hz | hz
      · rw [hz]; simp [hlt]
      · have : cmp b0 z = .lt := TransCmp.lt_trans hlt (ha.1 z hz)
        simp [this]
    · rw [if_neg h]
      rcases List.mem_cons.1 hz with hz | hz
      · rw [hz]; simp [OrientedCmp.cmp_refl]
      · simp [ha.1 z hz]
  · intro z hz
    by_cases h : cmp a0 b0 = .gt
    · rw [if_pos h]
      rcases List.mem_cons.1 hz with hz | hz
      · rw [hz]; simp [OrientedCmp.cmp_refl]
      · simp [hb.1 z hz]
    · rw [if_neg h]
      rcases List.mem_cons.1 hz with hz | hz
      · rw [hz]; exact h
      · have : cmp a0 z = .lt := TransCmp.le_lt_trans h (hb.1 z hz)
        simp [this]
  · intro h
    have hne : ¬cmp a0 b0 = .gt := by simp [h]
    simp [old_datafrog, hne, h]

theorem c8_normalization_witness :
    Conforming compare ([2] : List Nat)
    ∧ Conforming compare ([1, 3] : List Nat)
    ∧ ((compare 2 1 = .gt →
        old_datafrog compare [2] [1, 3] = old_datafrog compare [1, 3] [2])
      ∧ (old_datafrog compare [2] [1, 3]).head?
          = some (if compare 2 1 = .gt then 1 else 2)
      ∧ (∀ z ∈ [2], compare (if compare 2 1 = .gt then 1 else 2) z ≠ .gt)
      ∧ (∀ z ∈ [1, 3], compare (if compare 2 1 = .gt then 1 else 2) z ≠ .gt)
      ∧ (compare 2 1 = .eq →
        old_datafrog compare [2] [1, 3] = 2 :: odMerge compare [] [3])) :=
  ⟨by simp [Conforming, compare, compareOfLessAndEq],
    by simp [Conforming, compare, compareOfLessAndEq],
    c8_normalization compare 2 1 [] [3]
      (by simp [Conforming, compare, compareOfLessAndEq])
      (by simp [Conforming, compare, compareOfLessAndEq])⟩

/-- Claim C6: accounting for the raw-storage merge `raw_ptr`.  For all
inputs, the number of elements in the output (the live instances after the
merge) plus the number of elements explicitly destructed as duplicates equals
`len(A) + len(B)`.  Whenever both inputs are non-empty (so the main loop
runs), the number of relocation events equals the output length, and every
slot of `A` and of `B` is consumed by exactly one event — relocated or
destructed exactly once, and no slot is touched more than once. -/
theorem c6_consumption {α : Type*} (cmp : α → α → Ordering) (a b : List α) :
    ((raw_ptr cmp a b).length
        + (rawTrace cmp a b).countP (fun e => decide (e.2 = RawAct.destruct))
      = a.length + b.length)
    ∧ (a ≠ [] → b ≠ [] →
        (rawTrace cmp a b).countP (fun e => decide (e.2 = RawAct.reloc))
          = (raw_ptr cmp a b).length
        ∧ (∀ k, ((rawTrace cmp a b).map Prod.fst).count (RawSlot.A k)
            = if k < a.length then 1 else 0)
        ∧ (∀ k, ((rawTrace cmp a b).map Prod.fst).count (RawSlot.B k)
            = if k < b.length then 1 else 0)) := by
  rcases a with _ | ⟨x, xs⟩
  · exact ⟨by simp [raw_ptr, rawTrace], fun h => absurd rfl h⟩
  · rcases b with _ | ⟨y, ys⟩
    · exact ⟨by simp [raw_ptr, rawTrace], fun _ h => absurd rfl h⟩
    · have hru : raw_ptr cmp (x :: xs) (y :: ys) = mergeLoop cmp (x :: xs) (y :: ys) :=
        raw_ptr_eq _ _
      have htr : rawTrace cmp (x :: xs) (y :: ys)
          = rawTraceLoop cmp 0 0 (x :: xs) (y :: ys) := by
        simp [rawTrace]
      refine ⟨?_, fun _ _ => ⟨?_, fun k => ?_, fun k => ?_⟩⟩
      · rw [hru, htr]
        have := @rawTraceLoop_destruct_length _ cmp 0 0 (x :: xs) (y :: ys)
        omega
      · rw [hru, htr, rawTraceLoop_reloc_length]
      · rw [htr, rawTraceLoop_count_A]
        simp
      · rw [htr, rawTraceLoop_count_B]
        simp

theorem c6_consumption_witness :
    ([1, 2] : List Nat) ≠ [] ∧ ([2, 3] : List Nat) ≠ []
    ∧ ((rawTrace compare [1, 2] [2, 3]).countP (fun e => decide (e.2 = RawAct.reloc))
        = (raw_ptr compare [1, 2] [2, 3]).length
      ∧ (∀ k, ((rawTrace compare [1, 2] [2, 3]).map Prod.fst).count (RawSlot.A k)
          = if k < [1, 2].length then 1 else 0)
      ∧ (∀ k, ((rawTrace compare [1, 2] [2, 3]).map Prod.fst).count (RawSlot.B k)
          = if k < [2, 3].length then 1 else 0)) :=
  ⟨by simp, by simp,
    (c6_consumption compare [1, 2] [2, 3]).2 (by simp) (by simp)⟩

/-- Claim C4, counterexample: the claim "for every strategy the element
instance that survives a duplicate originates from the first argument"
fails for `old_datafrog`.  With pairs compared by first component only,
`A = [(2, 0)]` and `B = [(1, 1), (2, 2)]` are both conforming and the value
with key `2` is present in both; but because `front(A) > front(B)` the
bindings are swapped, and the surviving instance with key `2` is `(2, 2)`
from the second argument while `A`'s instance `(2, 0)` is destructed. -/
theorem c4_counterexample :
    Conforming keyCmp [(2, 0)]
    ∧ Conforming keyCmp [(1, 1), (2, 2)]
    ∧ keyCmp (2, 0) (2, 2) = .eq
    ∧ old_datafrog keyCmp [(2, 0)] [(1, 1), (2, 2)] = [(1, 1), (2, 2)]
    ∧ (2, 0) ∉ old_datafrog keyCmp [(2, 0)] [(1, 1), (2, 2)] := by
  refine ⟨by simp [Conforming], by simp [Conforming, keyCmp, compare, compareOfLessAndEq],
    by simp [keyCmp, compare, compareOfLessAndEq], ?_, ?_⟩
  · simp [old_datafrog, odMerge, keyCmp, compare, compareOfLessAndEq]
  · simp [old_datafrog, odMerge, keyCmp, compare, compareOfLessAndEq]

/-- Claim C4 (amended): for conforming inputs over any element type with a
lawful keyed comparator, the strategies `into_iter`, `into_iter_safer` and
`raw_ptr` keep the first argument's element instance on duplicates;
`old_datafrog` does so when `front(A) ≤ front(B)` (and when either input is
empty), but when `front(A) > front(B)` it swaps the two input bindings and
from then on the *second* argument's instances win ties.  The baseline is not
part of the statement: which instance of a duplicated value it keeps depends
on how `sort_unstable` orders key-equal elements before `dedup` keeps the
first of each run, and the unstable sort leaves that order unspecified. -/
theorem c4_tie_break {α : Type*} (cmp : α → α → Ordering) [TransCmp cmp]
    (a b : List α) (ha : Conforming cmp a) (hb : Conforming cmp b) :
    FirstWins cmp a b (into_iter cmp a b)
    ∧ FirstWins cmp a b (into_iter_safer cmp a b)
    ∧ FirstWins cmp a b (raw_ptr cmp a b)
    ∧ (∀ a0 as0 b0 bs0, a = a0 :: as0 → b = b0 :: bs0 →
        (cmp a0 b0 ≠ .gt → FirstWins cmp a b (old_datafrog cmp a b))
        ∧ (cmp a0 b0 = .gt → FirstWins cmp b a (old_datafrog cmp a b)))
    ∧ ((a = [] ∨ b = []) → FirstWins cmp a b (old_datafrog cmp a b)) := by
  rw [conforming_iff_pairwise] at ha hb
  have hfw : FirstWins cmp a b (mergeLoop cmp a b) :=
    ⟨mergeLoop_mem_left, mergeLoop_wins ha hb⟩
  have hfw2 : FirstWins cmp b a (mergeLoop cmp b a) :=
    ⟨mergeLoop_mem_left, mergeLoop_wins hb ha⟩
  refine ⟨by rw [into_iter_eq]; exact hfw, by rw [into_iter_safer_eq]; exact hfw,
    by rw [raw_ptr_eq]; exact hfw, ?_, ?_⟩
  · rintro a0 as0 b0 bs0 rfl rfl
    constructor
    · intro h
      rw [old_datafrog_cons, if_neg h]
      exact hfw
    · intro h
      rw [old_datafrog_cons, if_pos h]
      exact hfw2
  · rintro (rfl | rfl)
    · rw [show old_datafrog cmp [] b = b from by simp [old_datafrog]]
      exact ⟨fun p hp => absurd hp (List.not_mem_nil p),
        fun p hp => .inr ⟨hp, fun q hq => absurd hq (List.not_mem_nil q)⟩⟩
    · rw [show old_datafrog cmp a [] = a from by cases a <;> simp [old_datafrog]]
      exact ⟨fun p hp => hp, fun p hp => .inl hp⟩

theorem c4_tie_break_witness :
    Conforming keyCmp [(1, 10), (2, 20)]
    ∧ Conforming keyCmp [(2, 99)]
    ∧ (FirstWins keyCmp [(1, 10), (2, 20)] [(2, 99)]
          (into_iter keyCmp [(1, 10), (2, 20)] [(2, 99)])
      ∧ FirstWins keyCmp [(1, 10), (2, 20)] [(2, 99)]
          (into_iter_safer keyCmp [(1, 10), (2, 20)] [(2, 99)])
      ∧ FirstWins keyCmp [(1, 10), (2, 20)] [(2, 99)]
          (raw_ptr keyCmp [(1, 10), (2, 20)] [(2, 99)])
      ∧ (∀ a0 as0 b0 bs0, [(1, 10), (2, 20)] = a0 :: as0 → [(2, 99)] = b0 :: bs0 →
          (keyCmp a0 b0 ≠ .gt → FirstWins keyCmp [(1, 10), (2, 20)] [(2, 99)]
            (old_datafrog keyCmp [(1, 10), (2, 20)] [(2, 99)]))
          ∧ (keyCmp a0 b0 = .gt → FirstWins keyCmp [(2, 99)] [(1, 10), (2, 20)]
            (old_datafrog keyCmp [(1, 10), (2, 20)] [(2, 99)])))
      ∧ (([(1, 10), (2, 20)] : List (Nat × Nat)) = [] ∨ ([(2, 99)] : List (Nat × Nat)) = [] →
          FirstWins keyCmp [(1, 10), (2, 20)] [(2, 99)]
            (old_datafrog keyCmp [(1, 10), (2, 20)] [(2, 99)]))) :=
  ⟨by simp [Conforming, keyCmp, compare, compareOfLessAndEq],
    by simp [Conforming],
    c4_tie_break keyCmp [(1, 10), (2, 20)] [(2, 99)]
      (by simp [Conforming, keyCmp, compare, compareOfLessAndEq])
      (by simp [Conforming])⟩

end Claims

end KMerge
